import Mathlib

/-!
Verification development for the highlight-grid engine of this repository
(src/src/highlights/highlight_grid.ts and the sibling implementation in
src/unnamed/part_001).

The engine's data model is embedded shallowly:

* a grapheme cluster is a `G` carrying its identity (`code`), terminal cell
  width (`w`, the wcswidth value), UTF-16 length (`l16`, JavaScript `c.length`)
  and code-point count (`cps`, JavaScript `[...c].length`); a string is a
  `List G`;
* a JavaScript sparse array is a `List (Option α)`: `none` is a hole,
  `JSA.set` extends with holes like `a[i] = v`, `JSA.del` blanks a slot like
  `delete a[i]`, and `JSA.idxs` lists the present indexes in ascending order
  as `forEach` visits them.
-/

namespace ALab

structure G where
  code : Nat
  w : Nat
  l16 : Nat
  cps : Nat
deriving DecidableEq, Repr

abbrev Str := List G

def gTab : G := ⟨9, 1, 1, 1⟩
def gSpace : G := ⟨32, 1, 1, 1⟩
def gA : G := ⟨97, 1, 1, 1⟩
def gB : G := ⟨98, 1, 1, 1⟩
def gX : G := ⟨120, 1, 1, 1⟩
/-- The double-width CJK character 猫 (U+732B): one UTF-16 unit, one code
point, two terminal cells. -/
def gCat : G := ⟨0x732B, 2, 1, 1⟩

/-- `g` renders as the tab character (the JavaScript comparison `c === "\t"`). -/
def isTab (g : G) : Bool := g.code == 9

namespace JSA

variable {α : Type}

/-- `a[i]`: the element, or `none` for a hole or an out-of-bounds read. -/
def get : List (Option α) → Nat → Option α
  | [], _ => none
  | h :: _, 0 => h
  | _ :: t, n + 1 => get t n

/-- `a[i] = v`: in-place update, extending with holes when `i` is past the
end (a present-but-undefined slot is identified with a hole, which is
observationally equal for every read in this development). -/
def set : List (Option α) → Nat → Option α → List (Option α)
  | [], 0, v => [v]
  | [], n + 1, v => none :: set [] n v
  | _ :: t, 0, v => v :: t
  | h :: t, n + 1, v => h :: set t n v

/-- `delete a[i]`: blanks the slot without changing the length; a no-op past
the end. -/
def del : List (Option α) → Nat → List (Option α)
  | [], _ => []
  | _ :: t, 0 => none :: t
  | h :: t, n + 1 => h :: del t n

def idxsFrom : List (Option α) → Nat → List Nat
  | [], _ => []
  | none :: t, n => idxsFrom t (n + 1)
  | some _ :: t, n => n :: idxsFrom t (n + 1)

/-- The present indexes of a sparse array in ascending order (the order
`forEach` visits them). -/
def idxs (a : List (Option α)) : List Nat := idxsFrom a 0

/-- The present entries `(index, value)` in ascending index order. -/
def entriesFrom : List (Option α) → Nat → List (Nat × α)
  | [], _ => []
  | none :: t, n => entriesFrom t (n + 1)
  | some x :: t, n => (n, x) :: entriesFrom t (n + 1)

def entries (a : List (Option α)) : List (Nat × α) := entriesFrom a 0

end JSA

/-- Modelled from the spec: the wcswidth-based `getWidth` of the
width-measurement utilities, which are not under src/ (a tab counts as
`tabSize` cells, matching the inline analogue at src/unnamed/part_001
line 183: `wcswidth(text.replace(/\t/g, " ".repeat(tabSize)))`). -/
def getWidth (s : Str) (tabSize : Nat) : Nat :=
  s.foldl (fun acc g => acc + (if isTab g then tabSize else g.w)) 0

/-- Modelled from the spec: the `isDouble` width utility, not under src/
(`wcswidth(c) === 2`, cf. src/unnamed/part_001 line 100). -/
def isDouble (s : Str) : Bool := (s.foldl (fun acc g => acc + g.w) 0) == 2

def calcEditorColAux (tabSize screenCol : Nat) : Str → Nat → Nat → Nat
  | [], idx, _ => idx
  | g :: rest, idx, vimCol =>
    if vimCol < screenCol then
      calcEditorColAux tabSize screenCol rest (idx + 1)
        (vimCol + (if isTab g then tabSize - vimCol % tabSize else g.w))
    else idx

/-- Modelled from the spec: conversion of a start screen column to the
character column of the line text (§4.1 step 2; the utility itself is
imported from `../utils/text`, which is not under src/). Characters are
consumed while the accumulated screen width is below the screen column;
a tab expands to the next multiple of `tabSize`. -/
def calculateEditorColFromVimScreenCol (line : Str) (screenCol tabSize : Nat) : Nat :=
  if screenCol = 0 ∨ line = [] then 0
  else calcEditorColAux tabSize screenCol line 0 0

structure ValidCell where
  text : Str
  hlId : Nat
deriving DecidableEq, Repr

structure Highlight where
  text : Str
  hlId : Nat
  virtText : Option Str
deriving DecidableEq, Repr

abbrev CellHls := List Highlight
abbrev Row := List (Option CellHls)
abbrev Grid := List (Option Row)

structure HighlightCellsEvent where
  row : Nat
  vimCol : Nat
  validCells : List ValidCell
  lineText : Str
  tabSize : Nat
deriving DecidableEq, Repr

/-- `calcTabCells` (highlight_grid.ts lines 514-519): the number of screen
cells occupied by the tab at character column `tabCol`, measured from the
nearest preceding tab (or line start). -/
def lastTabIdxAux : Str → Nat → Option Nat → Option Nat
  | [], _, acc => acc
  | g :: t, n, acc => lastTabIdxAux t (n + 1) (if isTab g then some n else acc)

def calcTabCells (lineChars : Str) (tabSize : Nat) (tabCol : Nat) : Nat :=
  let pre := lineChars.take tabCol
  let nearestTabIdx := match lastTabIdxAux pre 0 none with
    | none => 0
    | some i => i + 1
  let center := pre.drop nearestTabIdx
  tabSize - getWidth center tabSize % tabSize

/-- `filledLineChars` (highlight_grid.ts lines 550-552): the line text with
an extra synthetic space column after every character whose UTF-16 length
exceeds 1, re-split into graphemes. -/
def filledChars (s : Str) : Str :=
  s.flatMap (fun g => g :: List.replicate (g.l16 - 1) gSpace)

/-- `Array.prototype.slice(0, e)` with a possibly negative end index. -/
def jsSliceTo (l : List α) (e : Int) : List α :=
  if e < 0 then l.take (l.length - e.natAbs) else l.take e.toNat

def mkHl (c : ValidCell) (vt : Option Str) : Highlight := ⟨c.text, c.hlId, vt⟩

/-- The tab branch's inner loop (highlight_grid.ts lines 567-570): take
`n` further cells from the iterator, appending each present one as a
virtual-text entry; the iterator index advances even past the end, as
`CellIter.next` post-increments unconditionally. -/
def tabLoop (cells : List ValidCell) : Nat → Nat → List Highlight → Nat × List Highlight
  | 0, idx, hls => (idx, hls)
  | n + 1, idx, hls =>
    match cells.get? idx with
    | some c => tabLoop cells n (idx + 1) (hls ++ [mkHl c (some c.text)])
    | none => tabLoop cells n (idx + 1) hls

structure StepOut where
  hls : List Highlight
  hlCol : Nat
  col2 : Nat
  idx2 : Nat
deriving DecidableEq, Repr

/-- One iteration of the cell-walk body of `processHighlightCellsEvent`
(highlight_grid.ts lines 555-601), up to but not including the store into
the grid row: from the taken `cell`, the character column `col` and the
iterator index `idx` (already past `cell`), compute the entry list `hls`,
the store column `hlCol`, and the updated character column and iterator
index. The control flow reads only the event data, never the grid row.
`hlCol` uses truncated `Nat` subtraction; it never truncates for real
strings, whose UTF-16 length bounds their code-point count from above. -/
def stepCore (cells : List ValidCell) (filled : List G) (lineChars : Str) (tabSize : Nat)
    (cell : ValidCell) (col idx : Nat) : StepOut :=
  let currChar := filled.get? col
  let extraCols := match currChar with
    | some c => c.l16 - 1
    | none => 0
  let col1 := col + extraCols
  let hlCol := col1 - (match currChar with
    | some c => c.cps - 1
    | none => 0)
  match currChar with
  | some ch =>
    if isTab ch then
      let p := tabLoop cells (calcTabCells lineChars tabSize col1 - 1) idx
        [mkHl cell (some cell.text)]
      ⟨p.2, hlCol, col1, p.1⟩
    else if isDouble [ch] then
      if cell.text == [ch] then ⟨[mkHl cell none], hlCol, col1, idx⟩
      else if isDouble cell.text then ⟨[mkHl cell (some cell.text)], hlCol, col1, idx⟩
      else
        let nextCell := cells.get? idx
        let hls2 := [mkHl cell (some cell.text)] ++
          (match nextCell with
            | some n => [mkHl n (some n.text)]
            | none => [])
        let hls3 := if extraCols ≠ 0 then
            hls2 ++ [mkHl (nextCell.getD cell) (some (List.replicate extraCols gSpace))]
          else hls2
        ⟨hls3, hlCol, col1, idx + 1⟩
    else
      if cell.text == [ch] then ⟨[mkHl cell none], hlCol, col1, idx⟩
      else ⟨[mkHl cell (some cell.text)], hlCol,
        (if isDouble cell.text then col1 + 1 else col1), idx⟩
  | none =>
    ⟨[mkHl cell (some cell.text)], hlCol,
      (if isDouble cell.text then col1 + 1 else col1), idx⟩

structure WalkSt where
  row : Row
  changed : Bool
  col : Nat
  idx : Nat
deriving DecidableEq, Repr

/-- The per-column store of the cell walk (highlight_grid.ts lines 603-611):
an empty or all-id-0 entry list deletes any existing column entry (counting
as a change only if one existed); otherwise the list is stored and the call
is unconditionally marked as changed. -/
def walkStep (cells : List ValidCell) (filled : List G) (lineChars : Str) (tabSize : Nat)
    (cell : ValidCell) (st : WalkSt) : WalkSt :=
  let o := stepCore cells filled lineChars tabSize cell st.col st.idx
  if o.hls.isEmpty || o.hls.all (fun d => d.hlId == 0) then
    match JSA.get st.row o.hlCol with
    | some _ => ⟨JSA.del st.row o.hlCol, true, o.col2 + 1, o.idx2⟩
    | none => ⟨st.row, st.changed, o.col2 + 1, o.idx2⟩
  else ⟨JSA.set st.row o.hlCol (some o.hls), true, o.col2 + 1, o.idx2⟩

/-- The `while (cell)` cell-walk loop (highlight_grid.ts lines 554-615),
written with explicit fuel. Each iteration takes the cell at the iterator
index and advances the index by at least one, so fuel `cells.length`
always suffices (the termination theorem below makes this precise). -/
def runLoop (cells : List ValidCell) (filled : List G) (lineChars : Str) (tabSize : Nat) :
    Nat → WalkSt → WalkSt
  | 0, st => st
  | f + 1, st =>
    match cells.get? st.idx with
    | none => st
    | some cell =>
      runLoop cells filled lineChars tabSize f
        (walkStep cells filled lineChars tabSize cell { st with idx := st.idx + 1 })

/-- The previous-column re-derivation region of `processHighlightCellsEvent`
(highlight_grid.ts lines 524-547): when the update starts strictly inside a
multi-cell character column, the column before the start column is rebuilt
by pulling cells from the front of the update. Returns the updated row and
the number of cells consumed (the iterator index for the main walk). -/
def prevColRegion (row0 : Row) (lineChars : Str) (vimCol tabSize editorCol : Nat)
    (cells : List ValidCell) : Row × Nat :=
  if 0 < editorCol then
    let prevCol := editorCol - 1
    let prevChar := lineChars.get? prevCol
    let expectedCells :=
      if prevChar.any isTab then calcTabCells lineChars tabSize prevCol
      else getWidth (prevChar.elim [] (fun c => [c])) tabSize
    if 1 < expectedCells then
      let expectedVimCol := getWidth (lineChars.take editorCol) tabSize
      if vimCol < expectedVimCol then
        let k := expectedVimCol - vimCol
        let rightHls := (cells.take k).map (fun c => mkHl c (some c.text))
        let leftHls :=
          if (expectedCells : Int) - rightHls.length ≠ 0 then
            jsSliceTo ((JSA.get row0 prevCol).getD []) ((expectedCells : Int) - rightHls.length)
          else []
        (JSA.set row0 prevCol (some (leftHls ++ rightHls)), k)
      else (row0, 0)
    else (row0, 0)
  else (row0, 0)

/-- `processHighlightCellsEvent` (highlight_grid.ts lines 503-618): the full
cell-run processor of the second `HighlightGrid` class. Returns the updated
grid and the `hasUpdates` flag. -/
def processHighlightCellsEvent (grid : Grid) (e : HighlightCellsEvent) : Grid × Bool :=
  let row0 : Row := (JSA.get grid e.row).getD []
  let lineChars := e.lineText
  let editorCol := calculateEditorColFromVimScreenCol e.lineText e.vimCol e.tabSize
  let p := prevColRegion row0 lineChars e.vimCol e.tabSize editorCol e.validCells
  let filled := filledChars e.lineText
  let stF := runLoop e.validCells filled lineChars e.tabSize e.validCells.length
    ⟨p.1, false, editorCol, p.2⟩
  (JSA.set grid e.row (some stF.row), stF.changed)

/-- `cleanRow` (highlight_grid.ts lines 499-501). -/
def cleanRow (g : Grid) (row : Nat) : Grid := JSA.del g row

/-- The positive branch of `shiftHighlights` (highlight_grid.ts lines
674-691): delete `b` rows starting at `frm`, then move every present row
with index above `frm` down by `b` in ascending index order. -/
def shiftPos (g : Grid) (b frm : Nat) : Grid :=
  let g1 := (List.range b).foldl (fun h i => JSA.del h (frm + i)) g
  (JSA.idxs g1).foldl
    (fun h idx => if idx ≤ frm then h else JSA.del (JSA.set h (idx - b) (JSA.get h idx)) idx) g1

/-- The negative branch of `shiftHighlights` (highlight_grid.ts lines
692-708): delete `b` rows counted from `frm` (or from the end when `frm`
is 0), then move every present row above `frm` up by `b` in descending
index order. -/
def shiftNeg (g : Grid) (b frm : Nat) : Grid :=
  let g1 := (List.range b).foldl
    (fun h i => JSA.del h (if frm ≠ 0 then frm + i else h.length - 1 - i)) g
  ((JSA.idxs g1).reverse).foldl
    (fun h idx => if idx ≤ frm then h else JSA.del (JSA.set h (idx + b) (JSA.get h idx)) idx) g1

/-- `shiftHighlights` (highlight_grid.ts lines 673-709). -/
def shiftHighlights (g : Grid) (amt : Int) (frm : Nat) : Grid :=
  if 0 < amt then shiftPos g amt.toNat frm
  else if amt < 0 then shiftNeg g amt.natAbs frm
  else g

/-- JavaScript truthiness of the optional `virtText` field: absent and the
empty string are both falsy. -/
def truthyVT : Option Str → Bool
  | none => false
  | some s => !s.isEmpty

inductive HighlightRange where
  | norm (hlId line startCol endCol : Nat)
  | virt (highlights : List Highlight) (line col : Nat)
deriving DecidableEq, Repr

structure BState where
  currHl : Option Highlight
  startCol : Nat
  endCol : Nat
  res : List HighlightRange
deriving DecidableEq, Repr

def buildInit : BState := ⟨none, 0, 0, []⟩

/-- One column step of `buildHighlightRanges` (highlight_grid.ts lines
627-656): a multi-entry or truthy-virtual column is emitted as a `virt`
range at once; a single real entry extends the open run when it shares the
highlight id and is adjacent, and otherwise closes it (emitting a `norm`
range if a run was open) and starts a new one. Reading `colHighlights[0]`
of an empty stored list would throw in JavaScript; that is `none` here. -/
def buildStep (line : Nat) (st : BState) (ce : Nat × CellHls) : Option BState :=
  match ce.2 with
  | [] => none
  | h :: t =>
    if 1 < (h :: t).length || truthyVT h.virtText then
      some { st with res := st.res ++ [.virt (h :: t) line ce.1] }
    else
      match st.currHl with
      | some c =>
        if c.hlId == h.hlId && st.endCol + 1 == ce.1 then some { st with endCol := ce.1 }
        else some ⟨some h, ce.1, ce.1,
          st.res ++ [.norm c.hlId line st.startCol (st.endCol + 1)]⟩
      | none => some ⟨some h, ce.1, ce.1, st.res⟩

def buildFold (line : Nat) : Option BState → List (Nat × CellHls) → Option BState
  | none, _ => none
  | some st, [] => some st
  | some st, ce :: rest => buildFold line (buildStep line st ce) rest

/-- The end-of-row flush (highlight_grid.ts lines 657-667). -/
def flushB (line : Nat) (st : BState) : List HighlightRange :=
  match st.currHl with
  | some c => [.norm c.hlId line st.startCol (st.endCol + 1)]
  | none => []

def buildRowRanges (line : Nat) (row : Row) : Option (List HighlightRange) :=
  (buildFold line (some buildInit) (JSA.entries row)).map (fun st => st.res ++ flushB line st)

/-- `buildHighlightRanges` (highlight_grid.ts lines 620-671): rows are
visited in ascending index order and each contributes its ranges in
emission order. -/
def buildHighlightRanges (g : Grid) (topLine : Nat) : Option (List HighlightRange) :=
  (JSA.entries g).foldl
    (fun acc rw => acc.bind (fun rs => (buildRowRanges (rw.1 + topLine) rw.2).map (rs ++ ·)))
    (some [])

def countNormal (rs : List HighlightRange) : Nat :=
  rs.countP (fun r => match r with
    | .norm _ _ _ _ => true
    | .virt _ _ _ => false)

structure Frag where
  hlId : Nat
  virtText : Str
deriving DecidableEq, Repr

/-- Append text to the last processed fragment's virtual text
(`processedColHighlights[processedColHighlights.length - 1].virtText += virtText`). -/
def appendLast : List Frag → Str → List Frag
  | [], _ => []
  | [f], vt => [⟨f.hlId, f.virtText ++ vt⟩]
  | f :: g :: t, vt => f :: appendLast (g :: t) vt

/-- The id-0 folding loop of `createColVirtTextOptions` (highlight_grid.ts
lines 392-403, first class; same shape in src/unnamed/part_001 lines
462-469): an entry's effective virtual text defaults to its cell text
(`virtText ??= text`); an id-0 entry with at least one processed fragment
before it appends its text to the last fragment, every other entry starts
a fragment of its own. -/
def pchAux (acc : List Frag) : List Highlight → List Frag
  | [] => acc
  | h :: t =>
    let vt := h.virtText.getD h.text
    if h.hlId == 0 && !acc.isEmpty then pchAux (appendLast acc vt) t
    else pchAux (acc ++ [⟨h.hlId, vt⟩]) t

def processedColHighlights (hls : List Highlight) : List Frag := pchAux [] hls

/-- The virtual-range guard of `highlightRangesToOptions` (highlight_grid.ts
lines 205-214, first class) composed with the fragment computation of
`createColVirtTextOptions`: a virtual range whose highlights all carry id 0
is skipped before any overlay fragment is produced. -/
def emittedVirtualFragments (hls : List Highlight) : List Frag :=
  if hls.all (fun h => h.hlId == 0) then [] else processedColHighlights hls

structure RefreshState where
  prevDecorators : List Nat
deriving DecidableEq, Repr

/-- The previous/current decorator-set diff of `refreshDecorations`
(highlight_grid.ts lines 132-154, first class; same logic in
src/unnamed/part_001 lines 433-444): `curr` is the decoration map computed
this refresh (decorator handle ↦ its options, both abstracted to `Nat`);
every decorator retained from the previous refresh but absent now receives
an explicit empty application, and the retained set becomes this refresh's
keys. The editor/viewport guards and the map construction are outside this
pure step. -/
def refreshStep (st : RefreshState) (curr : List (Nat × List Nat)) :
    List (Nat × List Nat) × RefreshState :=
  let currDecorators := curr.map Prod.fst
  let applied := curr ++
    (st.prevDecorators.filter (fun d => !currDecorators.contains d)).map (fun d => (d, []))
  (applied, ⟨currDecorators⟩)

/-- A stored entry list is non-degenerate: non-empty and not entirely id 0
(the shape the per-column store of the cell walk guarantees). -/
def colOkB : Option CellHls → Bool
  | none => true
  | some l => !l.isEmpty && l.any (fun h => h.hlId ≠ 0)

def rowOkB (r : Row) : Bool := r.all colOkB

def rowSlotOkB : Option Row → Bool
  | none => true
  | some r => rowOkB r

def gridOkB (g : Grid) : Bool := g.all rowSlotOkB

/-- The claimed invariant: no stored Column Map entry is an empty Highlight
Entry list, and none consists solely of id-0 entries. -/
def GridInv (g : Grid) : Prop := gridOkB g = true

/-- The grid-mutating operations reachable from the redraw stream: cell-run
processing, row clear, and scroll shift. -/
inductive GridOp where
  | cells (e : HighlightCellsEvent)
  | clean (row : Nat)
  | shift (amt : Int) (frm : Nat)
deriving DecidableEq, Repr

def applyOp (g : Grid) : GridOp → Grid
  | .cells e => (processHighlightCellsEvent g e).1
  | .clean r => cleanRow g r
  | .shift a f => shiftHighlights g a f

def applyOps (g : Grid) (ops : List GridOp) : Grid := ops.foldl applyOp g

def opZeroStart : GridOp → Bool
  | .cells e => e.vimCol == 0
  | _ => true

/-- A stored column holds exactly one real (non-virtual) entry. -/
def singletonReal (l : CellHls) : Bool :=
  match l with
  | [h] => h.virtText == none
  | _ => false

def runCountGo (c i : Nat) : List (Nat × Nat) → Nat
  | [] => 0
  | q :: rest => (if q.1 == c + 1 && q.2 == i then 0 else 1) + runCountGo q.1 q.2 rest

/-- The number of maximal runs of adjacent, same-id columns in an ascending
`(column, highlight id)` sequence. -/
def runCount : List (Nat × Nat) → Nat
  | [] => 0
  | p :: rest => 1 + runCountGo p.1 p.2 rest

def rowRunKey (row : Row) : List (Nat × Nat) :=
  (JSA.entries row).map (fun p => (p.1, (p.2.head?.elim 0 (fun h => h.hlId))))

/-- The writes a cell walk performs on its grid row, as state transformers:
the store branch is an assignment, the delete branch's state effect is an
unconditional slot blank. -/
inductive RWrite where
  | setW (i : Nat) (v : CellHls)
  | delW (i : Nat)
deriving DecidableEq, Repr

def applyW (r : Row) : RWrite → Row
  | .setW i v => JSA.set r i (some v)
  | .delW i => JSA.del r i

def applyWs (r : Row) (ws : List RWrite) : Row := ws.foldl applyW r

/-- The write trace of the cell walk: it depends only on the event data
(cells, line text, tab size) and the starting columns, never on the row. -/
def walkTrace (cells : List ValidCell) (filled : List G) (lineChars : Str) (tabSize : Nat) :
    Nat → Nat → Nat → List RWrite
  | 0, _, _ => []
  | f + 1, col, idx =>
    match cells.get? idx with
    | none => []
    | some cell =>
      let o := stepCore cells filled lineChars tabSize cell col (idx + 1)
      (if o.hls.isEmpty || o.hls.all (fun d => d.hlId == 0) then RWrite.delW o.hlCol
       else RWrite.setW o.hlCol o.hls) ::
        walkTrace cells filled lineChars tabSize f (o.col2 + 1) o.idx2

/-- The last write a trace performs at slot `j`, if any. -/
def lastW (ws : List RWrite) (j : Nat) : Option RWrite :=
  ws.foldl (fun acc w => match w with
    | .setW i v => if i = j then some (.setW i v) else acc
    | .delW i => if i = j then some (.delW i) else acc) none

/-- The value slot `j` holds after a write trace, given its original value. -/
def lastWriteVal (ws : List RWrite) (j : Nat) (orig : Option CellHls) : Option CellHls :=
  match lastW ws j with
  | some (.setW _ v) => some v
  | some (.delW _) => none
  | none => orig

/-! Basic lemmas about the sparse-array operations. -/

theorem JSA.get_set_self {α : Type} (a : List (Option α)) (i : Nat) (v : Option α) :
    JSA.get (JSA.set a i v) i = v := by
  induction a generalizing i with
  | nil =>
    induction i with
    | zero => rfl
    | succ n ih => simpa [JSA.set, JSA.get] using ih
  | cons h t ih =>
    cases i with
    | zero => rfl
    | succ n => simpa [JSA.set, JSA.get] using ih n

theorem JSA.get_set_ne {α : Type} (a : List (Option α)) (i j : Nat) (v : Option α)
    (hne : j ≠ i) : JSA.get (JSA.set a i v) j = JSA.get a j := by
  induction a generalizing i j with
  | nil =>
    induction i generalizing j with
    | zero =>
      cases j with
      | zero => exact absurd rfl hne
      | succ m => rfl
    | succ n ih =>
      cases j with
      | zero => rfl
      | succ m => simpa [JSA.set, JSA.get] using ih m (by omega)
  | cons h t ih =>
    cases i with
    | zero =>
      cases j with
      | zero => exact absurd rfl hne
      | succ m => rfl
    | succ n =>
      cases j with
      | zero => rfl
      | succ m => simpa [JSA.set, JSA.get] using ih n m (by omega)

theorem JSA.get_del_self {α : Type} (a : List (Option α)) (i : Nat) :
    JSA.get (JSA.del a i) i = none := by
  induction a generalizing i with
  | nil => cases i <;> rfl
  | cons h t ih =>
    cases i with
    | zero => rfl
    | succ n => simpa [JSA.del, JSA.get] using ih n

theorem JSA.get_del_ne {α : Type} (a : List (Option α)) (i j : Nat) (hne : j ≠ i) :
    JSA.get (JSA.del a i) j = JSA.get a j := by
  induction a generalizing i j with
  | nil => cases i <;> cases j <;> rfl
  | cons h t ih =>
    cases i with
    | zero =>
      cases j with
      | zero => exact absurd rfl hne
      | succ m => rfl
    | succ n =>
      cases j with
      | zero => rfl
      | succ m => simpa [JSA.del, JSA.get] using ih n m (by omega)

theorem JSA.del_of_get_none {α : Type} (a : List (Option α)) (i : Nat)
    (h : JSA.get a i = none) : JSA.del a i = a := by
  induction a generalizing i with
  | nil => cases i <;> rfl
  | cons x t ih =>
    cases i with
    | zero => simp [JSA.get] at h; simp [JSA.del, h]
    | succ n =>
      simp only [JSA.get] at h
      simp [JSA.del, ih n h]

theorem JSA.set_set_same {α : Type} (a : List (Option α)) (i : Nat) (v : Option α) :
    JSA.set (JSA.set a i v) i v = JSA.set a i v := by
  induction a generalizing i with
  | nil =>
    induction i with
    | zero => rfl
    | succ n ih => simpa [JSA.set] using ih
  | cons h t ih =>
    cases i with
    | zero => rfl
    | succ n => simpa [JSA.set] using ih n

theorem JSA.all_set {α : Type} (a : List (Option α)) (i : Nat) (v : Option α)
    (p : Option α → Bool) (ha : a.all p = true) (hv : p v = true) (hn : p none = true) :
    (JSA.set a i v).all p = true := by
  induction a generalizing i with
  | nil =>
    induction i with
    | zero => simp [JSA.set, hv]
    | succ n ih => simp only [JSA.set, List.all_cons]; simp [hn, ih]
  | cons h t ih =>
    simp only [List.all_cons, Bool.and_eq_true] at ha
    cases i with
    | zero => simp [JSA.set, hv, ha.2]
    | succ n => simp only [JSA.set, List.all_cons]; simp [ha.1, ih n ha.2]

theorem JSA.all_del {α : Type} (a : List (Option α)) (i : Nat)
    (p : Option α → Bool) (ha : a.all p = true) (hn : p none = true) :
    (JSA.del a i).all p = true := by
  induction a generalizing i with
  | nil => simp [JSA.del]
  | cons h t ih =>
    simp only [List.all_cons, Bool.and_eq_true] at ha
    cases i with
    | zero => simp [JSA.del, hn, ha.2]
    | succ n => simp only [JSA.del, List.all_cons]; simp [ha.1, ih n ha.2]

theorem JSA.all_get {α : Type} (a : List (Option α)) (i : Nat)
    (p : Option α → Bool) (ha : a.all p = true) (hn : p none = true) :
    p (JSA.get a i) = true := by
  induction a generalizing i with
  | nil => simpa [JSA.get] using hn
  | cons h t ih =>
    simp only [List.all_cons, Bool.and_eq_true] at ha
    cases i with
    | zero => simpa [JSA.get] using ha.1
    | succ n => simpa [JSA.get] using ih n ha.2

/-- C9: Calling the row shifter with a shift amount of zero leaves the
entire grid state unchanged, since neither the positive nor the negative
branch executes. -/
theorem c9_shift_by_zero_identity (g : Grid) (frm : Nat) :
    shiftHighlights g 0 frm = g := by
  simp [shiftHighlights]

/-- C8: A decoration style applied in refresh N (a key of that refresh's
decoration map) that produces no ranges in refresh N+1 receives an explicit
application with an empty range list in refresh N+1, and the retained
previous-style set is replaced by the styles used in refresh N+1. -/
theorem c8_end_of_flush_emptying (p0 : List Nat) (currN currN1 : List (Nat × List Nat))
    (s : Nat) (hs : s ∈ currN.map Prod.fst) (hns : s ∉ currN1.map Prod.fst) :
    (s, ([] : List Nat)) ∈ (refreshStep (refreshStep ⟨p0⟩ currN).2 currN1).1 ∧
    (refreshStep (refreshStep ⟨p0⟩ currN).2 currN1).2.prevDecorators = currN1.map Prod.fst := by
  refine ⟨?_, rfl⟩
  have hmem : s ∈ (currN.map Prod.fst).filter
      (fun d => !(currN1.map Prod.fst).contains d) := by
    rw [List.mem_filter]
    refine ⟨hs, ?_⟩
    simpa using hns
  exact List.mem_append_right _
    (List.mem_map_of_mem (fun d => (d, ([] : List Nat))) hmem)

/-- C8 witness: style 7 applied in refresh N, absent in refresh N+1, is
explicitly emptied and the retained set becomes the refresh-N+1 styles. -/
theorem c8_end_of_flush_emptying_witness :
    (7, ([] : List Nat)) ∈ (refreshStep (refreshStep ⟨[]⟩ [(7, [1])]).2 [(8, [2])]).1 ∧
    (refreshStep (refreshStep ⟨[]⟩ [(7, [1])]).2 [(8, [2])]).2.prevDecorators =
      [(8, [2])].map Prod.fst :=
  c8_end_of_flush_emptying [] [(7, [1])] [(8, [2])] 7 (by decide) (by decide)

theorem appendLast_map_hlId (acc : List Frag) (vt : Str) :
    (appendLast acc vt).map Frag.hlId = acc.map Frag.hlId := by
  induction acc with
  | nil => rfl
  | cons f rest ih =>
    cases rest with
    | nil => rfl
    | cons g t => simpa [appendLast] using ih

theorem appendLast_length (acc : List Frag) (vt : Str) :
    (appendLast acc vt).length = acc.length := by
  have := appendLast_map_hlId acc vt
  calc (appendLast acc vt).length = ((appendLast acc vt).map Frag.hlId).length := by simp
    _ = (acc.map Frag.hlId).length := by rw [this]
    _ = acc.length := by simp

theorem appendLast_ne_nil (acc : List Frag) (vt : Str) (h : acc ≠ []) :
    appendLast acc vt ≠ [] := by
  intro hc
  have := appendLast_length acc vt
  rw [hc] at this
  simp at this
  exact h (List.eq_nil_of_length_eq_zero this.symm)

theorem pchAux_length (hls : List Highlight) : ∀ acc : List Frag, acc ≠ [] →
    (pchAux acc hls).length = acc.length + (hls.filter (fun x => x.hlId != 0)).length := by
  induction hls with
  | nil => intro acc _; simp [pchAux]
  | cons h t ih =>
    intro acc hacc
    by_cases h0 : h.hlId = 0
    · have hcond : (h.hlId == 0 && !acc.isEmpty) = true := by
        simp [h0, List.isEmpty_iff, hacc]
      rw [pchAux, hcond]
      simp only [if_true]
      rw [ih _ (appendLast_ne_nil acc _ hacc), appendLast_length]
      simp [List.filter, h0]
    · have hcond : (h.hlId == 0 && !acc.isEmpty) = false := by
        simp [h0]
      rw [pchAux, hcond]
      simp only [Bool.false_eq_true, if_false]
      rw [ih _ (by simp)]
      simp only [List.length_append, List.length_cons, List.length_nil]
      have hb : (h.hlId != 0) = true := by simp [h0]
      have : (List.filter (fun x => x.hlId != 0) (h :: t)).length =
          (List.filter (fun x => x.hlId != 0) t).length + 1 := by
        simp [List.filter, hb]
      omega

theorem mem_appendLast_id (acc : List Frag) (vt : Str) (f : Frag)
    (hf : f ∈ appendLast acc vt) : f.hlId ∈ acc.map Frag.hlId := by
  rw [← appendLast_map_hlId acc vt]
  exact List.mem_map_of_mem Frag.hlId hf

theorem map_hlId_tail (l : List Frag) : l.tail.map Frag.hlId = (l.map Frag.hlId).tail := by
  cases l <;> rfl

theorem pchAux_tail_nonzero (hls : List Highlight) : ∀ acc : List Frag,
    (∀ f ∈ acc.tail, f.hlId ≠ 0) → ∀ f ∈ (pchAux acc hls).tail, f.hlId ≠ 0 := by
  induction hls with
  | nil => intro acc hacc; simpa [pchAux] using hacc
  | cons h t ih =>
    intro acc hacc
    rw [pchAux]
    by_cases hc : (h.hlId == 0 && !acc.isEmpty) = true
    · rw [hc]
      simp only [if_true]
      refine ih _ ?_
      intro f hf
      have hidmem : f.hlId ∈ acc.tail.map Frag.hlId := by
        rw [map_hlId_tail, ← appendLast_map_hlId acc (h.virtText.getD h.text),
          ← map_hlId_tail]
        exact List.mem_map_of_mem Frag.hlId hf
      obtain ⟨g, hg, hgid⟩ := List.mem_map.mp hidmem
      rw [← hgid]
      exact hacc g hg
    · rw [Bool.not_eq_true] at hc
      rw [hc]
      simp only [Bool.false_eq_true, if_false]
      refine ih _ ?_
      intro f hf
      cases acc with
      | nil =>
        simp at hf
      | cons a r =>
        simp only [List.cons_append, List.tail_cons] at hf
        rcases List.mem_append.mp hf with hl | hr
        · exact hacc f (by simpa using hl)
        · have : f = ⟨h.hlId, h.virtText.getD h.text⟩ := by simpa using hr
          subst this
          simp only [ne_eq]
          intro habs
          simp [habs, List.isEmpty_iff] at hc

/-- C7: In virtual-overlay emission, (i) an id-0 entry with at least one
earlier entry appends its effective text to the preceding processed
fragment and adds no fragment of its own, (ii) a column's fragment count is
one plus the number of non-id-0 entries after the first, (iii) every
fragment after the first carries a nonzero id (id-0 entries never become
their own overlay fragment past the head), and (iv) a column whose entries
all carry id 0 produces no overlay fragment at all. -/
theorem c7_id0_folding :
    (∀ (acc : List Frag) (e : Highlight) (rest : List Highlight), acc ≠ [] → e.hlId = 0 →
      pchAux acc (e :: rest) = pchAux (appendLast acc (e.virtText.getD e.text)) rest ∧
      (appendLast acc (e.virtText.getD e.text)).length = acc.length ∧
      (appendLast acc (e.virtText.getD e.text)).map Frag.hlId = acc.map Frag.hlId) ∧
    (∀ (h : Highlight) (t : List Highlight),
      (processedColHighlights (h :: t)).length =
        1 + (t.filter (fun x => x.hlId != 0)).length) ∧
    (∀ (hls : List Highlight), ∀ f ∈ (processedColHighlights hls).tail, f.hlId ≠ 0) ∧
    (∀ hls : List Highlight, (∀ h ∈ hls, h.hlId = 0) → emittedVirtualFragments hls = []) := by
  refine ⟨?_, ?_, ?_, ?_⟩
  · intro acc e rest hacc he0
    have hcond : (e.hlId == 0 && !acc.isEmpty) = true := by
      simp [he0, List.isEmpty_iff, hacc]
    refine ⟨?_, appendLast_length acc _, appendLast_map_hlId acc _⟩
    rw [pchAux, hcond]
    simp
  · intro h t
    rw [processedColHighlights, pchAux]
    have hcond : (h.hlId == 0 && !(List.isEmpty ([] : List Frag))) = false := by simp
    rw [hcond]
    simp only [Bool.false_eq_true, if_false, List.nil_append]
    rw [pchAux_length t _ (by simp)]
    simp
  · intro hls
    exact pchAux_tail_nonzero hls [] (by simp)
  · intro hls hz
    rw [emittedVirtualFragments, if_pos]
    rw [List.all_eq_true]
    intro h hh
    simpa using hz h hh

/-- C7 witness: an id-0 filler after a real fragment folds into it; a fully
id-0 column emits nothing. -/
theorem c7_id0_folding_witness :
    (pchAux [⟨1, [gA]⟩] [⟨[gSpace], 0, some [gSpace]⟩] =
      pchAux (appendLast [⟨1, [gA]⟩]
        ((some [gSpace] : Option Str).getD [gSpace])) [] ∧
      (appendLast [⟨1, [gA]⟩] ((some [gSpace] : Option Str).getD [gSpace])).length =
        [(⟨1, [gA]⟩ : Frag)].length ∧
      (appendLast [⟨1, [gA]⟩] ((some [gSpace] : Option Str).getD [gSpace])).map Frag.hlId =
        [(⟨1, [gA]⟩ : Frag)].map Frag.hlId) ∧
    emittedVirtualFragments [⟨[gSpace], 0, some [gSpace]⟩] = [] := by
  constructor
  · have h1 := c7_id0_folding.1 [⟨1, [gA]⟩] ⟨[gSpace], 0, some [gSpace]⟩ []
      (by decide) rfl
    simpa using h1
  · exact c7_id0_folding.2.2.2 [⟨[gSpace], 0, some [gSpace]⟩] (by
      intro h hh
      simp only [List.mem_singleton] at hh
      rw [hh])

/-! Termination of the cell walk: every branch of the loop body only ever
advances the iterator, and the iteration itself consumes one cell, so the
loop result is already stable at fuel `cells.length - st.idx`. -/

theorem tabLoop_idx_le (cells : List ValidCell) :
    ∀ (n idx : Nat) (hls : List Highlight), idx ≤ (tabLoop cells n idx hls).1 := by
  intro n
  induction n with
  | zero => intro idx hls; exact Nat.le_refl idx
  | succ m ih =>
    intro idx hls
    rw [tabLoop]
    cases cells.get? idx with
    | some c => exact Nat.le_trans (Nat.le_succ idx) (ih (idx + 1) _)
    | none => exact Nat.le_trans (Nat.le_succ idx) (ih (idx + 1) _)

theorem stepCore_idx_le (cells : List ValidCell) (filled : List G) (lineChars : Str)
    (tabSize : Nat) (cell : ValidCell) (col idx : Nat) :
    idx ≤ (stepCore cells filled lineChars tabSize cell col idx).idx2 := by
  rw [stepCore]
  cases hc : filled.get? col with
  | none => simp
  | some ch =>
    simp only
    by_cases ht : isTab ch
    · simp only [ht, if_true]
      exact tabLoop_idx_le cells _ idx _
    · simp only [ht, Bool.false_eq_true, if_false]
      by_cases hd : isDouble [ch]
      · simp only [hd, if_true]
        by_cases he : cell.text == [ch]
        · simp [he]
        · simp only [he, Bool.false_eq_true, if_false]
          by_cases hd2 : isDouble cell.text
          · simp [hd2]
          · simp only [hd2, Bool.false_eq_true, if_false]
            simp
      · simp only [hd, Bool.false_eq_true, if_false]
        by_cases he : cell.text == [ch]
        · simp [he]
        · simp [he]

theorem walkStep_idx (cells : List ValidCell) (filled : List G) (lineChars : Str)
    (tabSize : Nat) (cell : ValidCell) (st : WalkSt) :
    (walkStep cells filled lineChars tabSize cell st).idx =
      (stepCore cells filled lineChars tabSize cell st.col st.idx).idx2 := by
  rw [walkStep]
  split
  · split <;> rfl
  · rfl

theorem runLoop_fuel_succ (cells : List ValidCell) (filled : List G) (lineChars : Str)
    (tabSize : Nat) : ∀ (f : Nat) (st : WalkSt), cells.length ≤ st.idx + f →
    runLoop cells filled lineChars tabSize (f + 1) st =
      runLoop cells filled lineChars tabSize f st := by
  intro f
  induction f with
  | zero =>
    intro st h
    rw [runLoop, runLoop]
    have : cells.get? st.idx = none := List.get?_eq_none.mpr (by omega)
    rw [this]
  | succ n ih =>
    intro st h
    rw [runLoop]
    cases hc : cells.get? st.idx with
    | none => rw [runLoop, hc]
    | some cell =>
      rw [runLoop, hc]
      apply ih
      have h1 : st.idx + 1 ≤
          (walkStep cells filled lineChars tabSize cell { st with idx := st.idx + 1 }).idx := by
        rw [walkStep_idx]
        exact stepCore_idx_le cells filled lineChars tabSize cell _ _
      omega

theorem runLoop_add (cells : List ValidCell) (filled : List G) (lineChars : Str)
    (tabSize : Nat) (f k : Nat) (st : WalkSt) (h : cells.length ≤ st.idx + f) :
    runLoop cells filled lineChars tabSize (f + k) st =
      runLoop cells filled lineChars tabSize f st := by
  induction k with
  | zero => rfl
  | succ n ih =>
    have hs := runLoop_fuel_succ cells filled lineChars tabSize (f + n) st (by omega)
    calc runLoop cells filled lineChars tabSize (f + (n + 1)) st
        = runLoop cells filled lineChars tabSize ((f + n) + 1) st := by rw [Nat.add_assoc]
      _ = runLoop cells filled lineChars tabSize (f + n) st := hs
      _ = runLoop cells filled lineChars tabSize f st := ih

/-- C10: The cell walk terminates on every finite input: each iteration of
`runLoop` consumes at least one cell of the finite sequence (every branch
of the body only advances the iterator index, and the trailing take
consumes one more), so once the fuel covers the cells remaining at the
iterator index, the result no longer depends on the fuel — the fuelled
loop computes the fixpoint the JavaScript `while (cell)` loop reaches. -/
theorem c10_walk_terminates (cells : List ValidCell) (filled : List G) (lineChars : Str)
    (tabSize : Nat) (f1 f2 : Nat) (st : WalkSt)
    (h1 : cells.length ≤ st.idx + f1) (h2 : cells.length ≤ st.idx + f2) :
    runLoop cells filled lineChars tabSize f1 st =
      runLoop cells filled lineChars tabSize f2 st := by
  rcases Nat.le_total f1 f2 with hle | hle
  · have := runLoop_add cells filled lineChars tabSize f1 (f2 - f1) st h1
    rw [Nat.add_sub_cancel' hle] at this
    exact this.symm
  · have := runLoop_add cells filled lineChars tabSize f2 (f1 - f2) st h2
    rw [Nat.add_sub_cancel' hle] at this
    exact this

/-- C10 witness: on a one-cell run, fuel 1 and fuel 5 compute the same
walk result. -/
theorem c10_walk_terminates_witness :
    runLoop [⟨[gA], 1⟩] [gA] [gA] 4 1 ⟨[], false, 0, 0⟩ =
      runLoop [⟨[gA], 1⟩] [gA] [gA] 4 5 ⟨[], false, 0, 0⟩ :=
  c10_walk_terminates [⟨[gA], 1⟩] [gA] [gA] 4 1 5 ⟨[], false, 0, 0⟩
    (by decide) (by decide)

/-! The `hasUpdates` flag: it is monotone along the walk, and a false
result means the walk never touched the row. -/

theorem walkStep_changed_mono (cells : List ValidCell) (filled : List G) (lineChars : Str)
    (tabSize : Nat) (cell : ValidCell) (st : WalkSt) (h : st.changed = true) :
    (walkStep cells filled lineChars tabSize cell st).changed = true := by
  rw [walkStep]
  split
  · split
    · rfl
    · exact h
  · rfl

theorem walkStep_false_inv (cells : List ValidCell) (filled : List G) (lineChars : Str)
    (tabSize : Nat) (cell : ValidCell) (st : WalkSt)
    (h : (walkStep cells filled lineChars tabSize cell st).changed = false) :
    (walkStep cells filled lineChars tabSize cell st).row = st.row ∧ st.changed = false := by
  simp only [walkStep] at h ⊢
  by_cases hc : ((stepCore cells filled lineChars tabSize cell st.col st.idx).hls.isEmpty ||
      (stepCore cells filled lineChars tabSize cell st.col st.idx).hls.all
        (fun d => d.hlId == 0)) = true
  · simp only [hc, if_true] at h ⊢
    cases hget : JSA.get st.row (stepCore cells filled lineChars tabSize cell st.col st.idx).hlCol with
    | some v =>
      simp only [hget] at h
      exact absurd h (by simp)
    | none =>
      simp only [hget] at h ⊢
      exact ⟨trivial, h⟩
  · rw [Bool.not_eq_true] at hc
    simp only [hc, Bool.false_eq_true, if_false] at h
    exact absurd h (by simp)

theorem runLoop_false_inv (cells : List ValidCell) (filled : List G) (lineChars : Str)
    (tabSize : Nat) : ∀ (f : Nat) (st : WalkSt),
    (runLoop cells filled lineChars tabSize f st).changed = false →
    (runLoop cells filled lineChars tabSize f st).row = st.row ∧ st.changed = false := by
  intro f
  induction f with
  | zero => intro st h; exact ⟨rfl, h⟩
  | succ n ih =>
    intro st h
    rw [runLoop] at h ⊢
    cases hc : cells.get? st.idx with
    | none =>
      rw [hc] at h
      exact ⟨rfl, h⟩
    | some cell =>
      rw [hc] at h
      obtain ⟨hrow, hch⟩ := ih _ h
      obtain ⟨hrow2, hch2⟩ := walkStep_false_inv cells filled lineChars tabSize cell
        { st with idx := st.idx + 1 } hch
      exact ⟨hrow.trans hrow2, hch2⟩

theorem calcEditorCol_zero (line : Str) (tabSize : Nat) :
    calculateEditorColFromVimScreenCol line 0 tabSize = 0 := by
  rw [calculateEditorColFromVimScreenCol]
  simp

theorem prevColRegion_zero (row0 : Row) (lineChars : Str) (vimCol tabSize : Nat)
    (cells : List ValidCell) :
    prevColRegion row0 lineChars vimCol tabSize 0 cells = (row0, 0) := by
  rw [prevColRegion]
  simp

/-- C1 (amended): for a cell-run event starting at screen column 0 (so the
previous-column re-derivation never fires), a false return from the
cell-run processor does imply that every column's stored state is
unchanged; the converse direction of the claim fails (see the
counterexample: an identical re-store still returns true). -/
theorem c1_false_means_unchanged (g : Grid) (e : HighlightCellsEvent)
    (hv : e.vimCol = 0) (hf : (processHighlightCellsEvent g e).2 = false) :
    ∀ col, JSA.get ((JSA.get (processHighlightCellsEvent g e).1 e.row).getD []) col =
      JSA.get ((JSA.get g e.row).getD []) col := by
  intro col
  simp only [processHighlightCellsEvent, hv, calcEditorCol_zero, prevColRegion_zero] at hf ⊢
  obtain ⟨hrow, -⟩ := runLoop_false_inv e.validCells (filledChars e.lineText) e.lineText
    e.tabSize e.validCells.length ⟨(JSA.get g e.row).getD [], false, 0, 0⟩ hf
  rw [hrow, JSA.get_set_self]
  simp

/-- C1 witness: an empty cell run at column 0 returns false and leaves
column 0 unchanged. -/
theorem c1_false_means_unchanged_witness :
    JSA.get ((JSA.get (processHighlightCellsEvent [] ⟨0, 0, [], [], 4⟩).1 0).getD []) 0 =
      JSA.get ((JSA.get ([] : Grid) 0).getD []) 0 :=
  c1_false_means_unchanged [] ⟨0, 0, [], [], 4⟩ rfl (by decide) 0

/-- C1 counterexample: re-storing column 0 of row 0 with an entry list
identical to what was already stored (line "a", one cell "a" with id 1)
leaves the grid exactly as before, yet the processor returns true — the
store branch sets `hasUpdates` unconditionally, so the returned boolean is
not "some column's stored state differed". -/
theorem c1_identical_restore_returns_true :
    (processHighlightCellsEvent [some [some [⟨[gA], 1, none⟩]]]
        ⟨0, 0, [⟨[gA], 1⟩], [gA], 4⟩).2 = true ∧
    (processHighlightCellsEvent [some [some [⟨[gA], 1, none⟩]]]
        ⟨0, 0, [⟨[gA], 1⟩], [gA], 4⟩).1 = [some [some [⟨[gA], 1, none⟩]]] :=
  ⟨rfl, rfl⟩

/-! The storage invariant: the per-column store of the cell walk never
stores an empty or all-id-0 list, and row clears and shifts only delete or
relocate rows, so the invariant is preserved — except by the
previous-column re-derivation, which can store degenerate lists (see the
C2 counterexample). -/

theorem rowOk_walkStep (cells : List ValidCell) (filled : List G) (lineChars : Str)
    (tabSize : Nat) (cell : ValidCell) (st : WalkSt) (h : rowOkB st.row = true) :
    rowOkB (walkStep cells filled lineChars tabSize cell st).row = true := by
  rw [walkStep]
  by_cases hc : ((stepCore cells filled lineChars tabSize cell st.col st.idx).hls.isEmpty ||
      (stepCore cells filled lineChars tabSize cell st.col st.idx).hls.all
        (fun d => d.hlId == 0)) = true
  · simp only [hc, if_true]
    cases hget : JSA.get st.row (stepCore cells filled lineChars tabSize cell st.col st.idx).hlCol with
    | some v =>
      simp only [hget]
      exact JSA.all_del _ _ _ h rfl
    | none =>
      simp only [hget]
      exact h
  · rw [Bool.not_eq_true] at hc
    simp only [hc, Bool.false_eq_true, if_false]
    refine JSA.all_set _ _ _ _ h ?_ rfl
    rw [Bool.or_eq_false_iff] at hc
    obtain ⟨h1, h2⟩ := hc
    simp only [colOkB, h1, Bool.not_false, Bool.true_and]
    rw [List.any_eq_true]
    have : ¬ ∀ x ∈ (stepCore cells filled lineChars tabSize cell st.col st.idx).hls,
        (x.hlId == 0) = true := by
      intro hall
      rw [← List.all_eq_true] at hall
      rw [hall] at h2
      exact absurd h2 (by simp)
    push_neg at this
    obtain ⟨x, hx, hxid⟩ := this
    refine ⟨x, hx, ?_⟩
    simp only [Bool.not_eq_true] at hxid
    simp only [beq_eq_false_iff_ne, ne_eq] at hxid
    simp [hxid]

theorem rowOk_runLoop (cells : List ValidCell) (filled : List G) (lineChars : Str)
    (tabSize : Nat) : ∀ (f : Nat) (st : WalkSt), rowOkB st.row = true →
    rowOkB (runLoop cells filled lineChars tabSize f st).row = true := by
  intro f
  induction f with
  | zero => intro st h; exact h
  | succ n ih =>
    intro st h
    rw [runLoop]
    cases cells.get? st.idx with
    | none => exact h
    | some cell => exact ih _ (rowOk_walkStep cells filled lineChars tabSize cell _ h)

theorem gridOk_row (g : Grid) (i : Nat) (hg : gridOkB g = true) :
    rowOkB ((JSA.get g i).getD []) = true := by
  have hget := JSA.all_get g i rowSlotOkB hg rfl
  cases hc : JSA.get g i with
  | none => rfl
  | some r =>
    rw [hc] at hget
    simpa [rowSlotOkB] using hget

theorem gridOk_process_zero (g : Grid) (e : HighlightCellsEvent) (hv : e.vimCol = 0)
    (hg : gridOkB g = true) : gridOkB (processHighlightCellsEvent g e).1 = true := by
  simp only [processHighlightCellsEvent, hv, calcEditorCol_zero, prevColRegion_zero]
  refine JSA.all_set _ _ _ _ hg ?_ rfl
  simp only [rowSlotOkB]
  exact rowOk_runLoop e.validCells (filledChars e.lineText) e.lineText e.tabSize
    e.validCells.length ⟨(JSA.get g e.row).getD [], false, 0, 0⟩ (gridOk_row g e.row hg)

theorem gridOk_clean (g : Grid) (r : Nat) (hg : gridOkB g = true) :
    gridOkB (cleanRow g r) = true :=
  JSA.all_del _ _ _ hg rfl

theorem gridOk_foldl_del {β : Type} (l : List β) (f : Grid → β → Nat) :
    ∀ g : Grid, gridOkB g = true →
    gridOkB (l.foldl (fun h x => JSA.del h (f h x)) g) = true := by
  induction l with
  | nil => intro g hg; exact hg
  | cons x t ih =>
    intro g hg
    exact ih _ (JSA.all_del _ _ _ hg rfl)

theorem gridOk_foldl_move (l : List Nat) (frm : Nat) (t : Nat → Nat) :
    ∀ g : Grid, gridOkB g = true →
    gridOkB (l.foldl (fun h idx =>
      if idx ≤ frm then h else JSA.del (JSA.set h (t idx) (JSA.get h idx)) idx) g) = true := by
  induction l with
  | nil => intro g hg; exact hg
  | cons x rest ih =>
    intro g hg
    simp only [List.foldl_cons]
    by_cases hx : x ≤ frm
    · simp only [hx, if_true]
      exact ih _ hg
    · simp only [hx, if_false]
      refine ih _ (JSA.all_del _ _ _ ?_ rfl)
      exact JSA.all_set _ _ _ _ hg (JSA.all_get _ _ _ hg rfl) rfl

theorem gridOk_shift (g : Grid) (amt : Int) (frm : Nat) (hg : gridOkB g = true) :
    gridOkB (shiftHighlights g amt frm) = true := by
  rw [shiftHighlights]
  by_cases h1 : 0 < amt
  · simp only [h1, if_true]
    rw [shiftPos]
    exact gridOk_foldl_move _ _ _ _ (gridOk_foldl_del _ _ _ hg)
  · simp only [h1, if_false]
    by_cases h2 : amt < 0
    · simp only [h2, if_true]
      rw [shiftNeg]
      exact gridOk_foldl_move _ _ _ _ (gridOk_foldl_del _ _ _ hg)
    · simp only [h2, if_false]
      exact hg

/-- C2 (amended): the storage invariant — no stored Column Map entry is an
empty list or a list of only id-0 entries — holds over every state
reachable by cell-run processing, row clears and shifts, provided every
cell-run event starts at screen column 0 (so the previous-column
re-derivation never fires); the unrestricted claim fails at that
re-derivation (see the counterexample). -/
theorem c2_invariant_zero_start_ops (g : Grid) (ops : List GridOp)
    (hg : GridInv g) (hz : ∀ op ∈ ops, opZeroStart op = true) :
    GridInv (applyOps g ops) := by
  induction ops generalizing g with
  | nil => exact hg
  | cons op rest ih =>
    rw [applyOps, List.foldl_cons]
    refine ih (applyOp g op) ?_ (fun o ho => hz o (List.mem_cons_of_mem op ho))
    have hop := hz op (List.mem_cons_self op rest)
    cases op with
    | cells e =>
      simp only [opZeroStart, beq_iff_eq] at hop
      exact gridOk_process_zero g e hop hg
    | clean r => exact gridOk_clean g r hg
    | shift a f => exact gridOk_shift g a f hg

/-- C2 witness: a column-0 cell run, a shift and a row clear keep the
invariant. -/
theorem c2_invariant_zero_start_ops_witness :
    GridInv (applyOps [] [GridOp.cells ⟨0, 0, [⟨[gA], 1⟩], [gA], 4⟩,
      GridOp.shift 1 0, GridOp.clean 0]) :=
  c2_invariant_zero_start_ops [] _ (by simp only [GridInv]; decide) (by decide)

/-- C2 counterexample: one cell-run event on line "猫" starting at screen
column 1 (inside the double-width character) with a single id-0 space cell
makes the previous-column re-derivation store the all-id-0 list
`[{hlId 0, text " ", virtText " "}]` at row 0, column 0 — a reachable
state that violates the claimed invariant. -/
theorem c2_prevcol_stores_all_zero :
    ¬ GridInv (applyOps [] [GridOp.cells ⟨0, 1, [⟨[gSpace], 0⟩], [gCat], 4⟩]) ∧
    JSA.get ((JSA.get (applyOps []
        [GridOp.cells ⟨0, 1, [⟨[gSpace], 0⟩], [gCat], 4⟩]) 0).getD []) 0 =
      some [⟨[gSpace], 0, some [gSpace]⟩] := by
  constructor
  · simp only [GridInv]
    decide
  · rfl

/-! The cell walk as a write trace: its control flow and the values it
stores depend only on the event data, so the walk's effect on the row is
the application of a state-independent sequence of slot writes. -/

theorem lastW_append_single (ws : List RWrite) (w : RWrite) (j : Nat) :
    lastW (ws ++ [w]) j = (match w with
      | .setW i v => if i = j then some (.setW i v) else lastW ws j
      | .delW i => if i = j then some (.delW i) else lastW ws j) := by
  cases w <;> simp [lastW, List.foldl_append]

theorem applyWs_append_single (r : Row) (ws : List RWrite) (w : RWrite) :
    applyWs r (ws ++ [w]) = applyW (applyWs r ws) w := by
  simp [applyWs, List.foldl_append]

theorem get_applyWs (ws : List RWrite) : ∀ (r : Row) (j : Nat),
    JSA.get (applyWs r ws) j = lastWriteVal ws j (JSA.get r j) := by
  induction ws using List.reverseRecOn with
  | nil => intro r j; rfl
  | append_singleton ws w ih =>
    intro r j
    rw [applyWs_append_single]
    cases w with
    | setW i v =>
      by_cases hij : i = j
      · subst hij
        rw [applyW]
        rw [JSA.get_set_self]
        simp only [lastWriteVal, lastW_append_single]
        simp
      · rw [applyW, JSA.get_set_ne _ _ _ _ (fun hc => hij hc.symm)]
        rw [ih r j]
        simp only [lastWriteVal, lastW_append_single]
        simp [hij]
    | delW i =>
      by_cases hij : i = j
      · subst hij
        rw [applyW, JSA.get_del_self]
        simp only [lastWriteVal, lastW_append_single]
        simp
      · rw [applyW, JSA.get_del_ne _ _ _ (fun hc => hij hc.symm)]
        rw [ih r j]
        simp only [lastWriteVal, lastW_append_single]
        simp [hij]

theorem lastWriteVal_idem (ws : List RWrite) (j : Nat) (o : Option CellHls) :
    lastWriteVal ws j (lastWriteVal ws j o) = lastWriteVal ws j o := by
  simp only [lastWriteVal]
  cases hw : lastW ws j with
  | none => rfl
  | some w => cases w <;> rfl

theorem walkStep_col (cells : List ValidCell) (filled : List G) (lineChars : Str)
    (tabSize : Nat) (cell : ValidCell) (st : WalkSt) :
    (walkStep cells filled lineChars tabSize cell st).col =
      (stepCore cells filled lineChars tabSize cell st.col st.idx).col2 + 1 := by
  rw [walkStep]
  split
  · split <;> rfl
  · rfl

theorem walkStep_row_applyW (cells : List ValidCell) (filled : List G) (lineChars : Str)
    (tabSize : Nat) (cell : ValidCell) (st : WalkSt) :
    (walkStep cells filled lineChars tabSize cell st).row = applyW st.row
      (if (stepCore cells filled lineChars tabSize cell st.col st.idx).hls.isEmpty ||
          (stepCore cells filled lineChars tabSize cell st.col st.idx).hls.all
            (fun d => d.hlId == 0) then
        RWrite.delW (stepCore cells filled lineChars tabSize cell st.col st.idx).hlCol
      else
        RWrite.setW (stepCore cells filled lineChars tabSize cell st.col st.idx).hlCol
          (stepCore cells filled lineChars tabSize cell st.col st.idx).hls) := by
  rw [walkStep]
  by_cases hc : ((stepCore cells filled lineChars tabSize cell st.col st.idx).hls.isEmpty ||
      (stepCore cells filled lineChars tabSize cell st.col st.idx).hls.all
        (fun d => d.hlId == 0)) = true
  · simp only [hc, if_true]
    cases hget : JSA.get st.row (stepCore cells filled lineChars tabSize cell st.col st.idx).hlCol with
    | some v =>
      simp only [hget]
      rfl
    | none =>
      simp only [hget]
      rw [applyW, JSA.del_of_get_none _ _ hget]
  · rw [Bool.not_eq_true] at hc
    simp only [hc, Bool.false_eq_true, if_false]
    rfl

theorem runLoop_row_trace (cells : List ValidCell) (filled : List G) (lineChars : Str)
    (tabSize : Nat) : ∀ (f : Nat) (st : WalkSt),
    (runLoop cells filled lineChars tabSize f st).row =
      applyWs st.row (walkTrace cells filled lineChars tabSize f st.col st.idx) := by
  intro f
  induction f with
  | zero => intro st; rfl
  | succ n ih =>
    intro st
    rw [runLoop, walkTrace]
    cases hc : cells.get? st.idx with
    | none => rfl
    | some cell =>
      simp only
      rw [ih (walkStep cells filled lineChars tabSize cell { st with idx := st.idx + 1 })]
      have hrow := walkStep_row_applyW cells filled lineChars tabSize cell
        { st with idx := st.idx + 1 }
      have hcol := walkStep_col cells filled lineChars tabSize cell
        { st with idx := st.idx + 1 }
      have hidx := walkStep_idx cells filled lineChars tabSize cell
        { st with idx := st.idx + 1 }
      rw [hrow, hcol, hidx]
      rfl

/-- C4 (amended): for every grid state and every cell-run event starting at
screen column 0 (so the previous-column re-derivation never fires),
applying the event twice in immediate succession leaves the stored Column
Map for that row equal — column by column — to the state after applying it
once; the unrestricted claim fails at the re-derivation, which can
duplicate entries (see the counterexample). -/
theorem c4_idempotent_at_col_zero (g : Grid) (e : HighlightCellsEvent) (hv : e.vimCol = 0) :
    ∀ col, JSA.get ((JSA.get
        (processHighlightCellsEvent (processHighlightCellsEvent g e).1 e).1 e.row).getD []) col =
      JSA.get ((JSA.get (processHighlightCellsEvent g e).1 e.row).getD []) col := by
  intro col
  simp only [processHighlightCellsEvent, hv, calcEditorCol_zero, prevColRegion_zero,
    JSA.get_set_self, Option.getD_some]
  simp only [runLoop_row_trace]
  rw [get_applyWs, get_applyWs]
  exact lastWriteVal_idem _ _ _

/-- C4 witness: a one-cell run at column 0 applied twice stores the same
column 0 as applying it once. -/
theorem c4_idempotent_at_col_zero_witness :
    JSA.get ((JSA.get (processHighlightCellsEvent
        (processHighlightCellsEvent [] ⟨0, 0, [⟨[gA], 1⟩], [gA], 4⟩).1
        ⟨0, 0, [⟨[gA], 1⟩], [gA], 4⟩).1 0).getD []) 0 =
      JSA.get ((JSA.get (processHighlightCellsEvent []
        ⟨0, 0, [⟨[gA], 1⟩], [gA], 4⟩).1 0).getD []) 0 :=
  c4_idempotent_at_col_zero [] ⟨0, 0, [⟨[gA], 1⟩], [gA], 4⟩ rfl 0

/-- C4 counterexample: on line "猫" with start screen column 1 (inside the
double-width character) and one id-5 space cell, the first application
stores one entry at row 0 column 0, while the second application's
previous-column re-derivation prepends the already-stored entry again,
leaving two — the same event applied twice does not equal applying it
once. -/
theorem c4_prevcol_not_idempotent :
    JSA.get ((JSA.get (processHighlightCellsEvent
        (processHighlightCellsEvent [] ⟨0, 1, [⟨[gSpace], 5⟩], [gCat], 4⟩).1
        ⟨0, 1, [⟨[gSpace], 5⟩], [gCat], 4⟩).1 0).getD []) 0 =
      some [⟨[gSpace], 5, some [gSpace]⟩, ⟨[gSpace], 5, some [gSpace]⟩] ∧
    JSA.get ((JSA.get (processHighlightCellsEvent []
        ⟨0, 1, [⟨[gSpace], 5⟩], [gCat], 4⟩).1 0).getD []) 0 =
      some [⟨[gSpace], 5, some [gSpace]⟩] :=
  ⟨rfl, rfl⟩

/-! The Range Builder's coalescing: under the C3 hypothesis every stored
column is a single real entry, and the builder emits one Normal range per
maximal run of adjacent same-id columns. -/

theorem countNormal_append (a b : List HighlightRange) :
    countNormal (a ++ b) = countNormal a + countNormal b := by
  simp [countNormal, List.countP_append]

theorem singletonReal_destruct (l : CellHls) (h : singletonReal l = true) :
    ∃ x : Highlight, l = [x] ∧ x.virtText = none := by
  cases l with
  | nil => simp [singletonReal] at h
  | cons a t =>
    cases t with
    | nil =>
      refine ⟨a, rfl, ?_⟩
      simp only [singletonReal] at h
      simpa using h
    | cons b t2 => simp [singletonReal] at h

theorem buildFold_count (line : Nat) : ∀ (es : List (Nat × CellHls)),
    (∀ p ∈ es, singletonReal p.2 = true) →
    ∀ (h0 : Highlight) (s0 e0 : Nat) (acc : List HighlightRange),
    ∃ st', buildFold line (some ⟨some h0, s0, e0, acc⟩) es = some st' ∧
      countNormal (st'.res ++ flushB line st') =
        countNormal acc + 1 +
          runCountGo e0 h0.hlId (es.map (fun p => (p.1, p.2.head?.elim 0 (fun h => h.hlId)))) := by
  intro es
  induction es with
  | nil =>
    intro _ h0 s0 e0 acc
    refine ⟨⟨some h0, s0, e0, acc⟩, rfl, ?_⟩
    simp [flushB, countNormal_append, countNormal, runCountGo]
  | cons ce rest ih =>
    intro hsing h0 s0 e0 acc
    obtain ⟨col, hls⟩ := ce
    obtain ⟨x, hx, hxvt⟩ := singletonReal_destruct hls (hsing _ (List.mem_cons_self _ rest))
    subst hx
    have hrest : ∀ p ∈ rest, singletonReal p.2 = true :=
      fun p hp => hsing p (List.mem_cons_of_mem _ hp)
    rw [buildFold]
    have hstep : buildStep line ⟨some h0, s0, e0, acc⟩ (col, [x]) =
        (if h0.hlId == x.hlId && e0 + 1 == col then some ⟨some h0, s0, col, acc⟩
         else some ⟨some x, col, col, acc ++ [.norm h0.hlId line s0 (e0 + 1)]⟩) := by
      simp only [buildStep, hxvt, truthyVT]
      simp
    rw [hstep]
    by_cases hcond : (h0.hlId == x.hlId && e0 + 1 == col) = true
    · rw [hcond]
      simp only [if_true]
      obtain ⟨st', hf, hc⟩ := ih hrest h0 s0 col acc
      refine ⟨st', hf, ?_⟩
      rw [hc]
      rw [Bool.and_eq_true, beq_iff_eq, beq_iff_eq] at hcond
      obtain ⟨hid, hcol⟩ := hcond
      have hkey : List.map (fun p => (p.1, p.2.head?.elim 0 (fun h => h.hlId)))
          (((col, [x]) : Nat × CellHls) :: rest) =
          (col, x.hlId) :: List.map (fun p => (p.1, p.2.head?.elim 0 (fun h => h.hlId))) rest := by
        simp
      rw [hkey, runCountGo]
      have h1 : (col == e0 + 1 && x.hlId == h0.hlId) = true := by simp [hcol, hid]
      rw [h1, hid]
      simp
    · rw [Bool.not_eq_true] at hcond
      rw [hcond]
      simp only [Bool.false_eq_true, if_false]
      obtain ⟨st', hf, hc⟩ := ih hrest x col col (acc ++ [.norm h0.hlId line s0 (e0 + 1)])
      refine ⟨st', hf, ?_⟩
      rw [hc]
      rw [countNormal_append]
      have hone : countNormal [HighlightRange.norm h0.hlId line s0 (e0 + 1)] = 1 := rfl
      have hkey : List.map (fun p => (p.1, p.2.head?.elim 0 (fun h => h.hlId)))
          (((col, [x]) : Nat × CellHls) :: rest) =
          (col, x.hlId) :: List.map (fun p => (p.1, p.2.head?.elim 0 (fun h => h.hlId))) rest := by
        simp
      rw [hkey, runCountGo]
      have hnand : ¬ ((col == e0 + 1) = true ∧ (x.hlId == h0.hlId) = true) := by
        intro ⟨ha, hb⟩
        rw [beq_iff_eq] at ha hb
        have habs : (h0.hlId == x.hlId && e0 + 1 == col) = true := by
          simp [ha, hb]
        rw [habs] at hcond
        exact absurd hcond (by simp)
      have hif : (col == e0 + 1 && x.hlId == h0.hlId) = false := by
        cases hA : (col == e0 + 1) with
        | false => rfl
        | true =>
          cases hB : (x.hlId == h0.hlId) with
          | false => rfl
          | true => exact absurd ⟨hA, hB⟩ hnand
      rw [hif]
      simp only [Bool.false_eq_true, if_false]
      rw [hone]
      omega


theorem buildFold_count_init (line : Nat) (es : List (Nat × CellHls))
    (hs : ∀ p ∈ es, singletonReal p.2 = true) :
    ∃ st', buildFold line (some buildInit) es = some st' ∧
      countNormal (st'.res ++ flushB line st') =
        runCount (es.map (fun p => (p.1, p.2.head?.elim 0 (fun h => h.hlId)))) := by
  cases es with
  | nil => exact ⟨buildInit, rfl, rfl⟩
  | cons ce rest =>
    obtain ⟨col, hls⟩ := ce
    obtain ⟨x, hx, hxvt⟩ := singletonReal_destruct hls (hs _ (List.mem_cons_self _ _))
    subst hx
    rw [buildFold]
    have hstep : buildStep line buildInit (col, [x]) = some ⟨some x, col, col, []⟩ := by
      simp only [buildStep, buildInit, hxvt, truthyVT]
      simp
    rw [hstep]
    obtain ⟨st', hf, hc⟩ := buildFold_count line rest
      (fun p hp => hs p (List.mem_cons_of_mem _ hp)) x col col []
    refine ⟨st', hf, ?_⟩
    rw [hc]
    have hkey : List.map (fun p => (p.1, p.2.head?.elim 0 (fun h => h.hlId)))
        (((col, [x]) : Nat × CellHls) :: rest) =
        (col, x.hlId) :: List.map (fun p => (p.1, p.2.head?.elim 0 (fun h => h.hlId))) rest := by
      simp
    rw [hkey]
    have hrc : runCount ((col, x.hlId) ::
        List.map (fun p => (p.1, p.2.head?.elim 0 (fun h => h.hlId))) rest) =
        1 + runCountGo col x.hlId
          (List.map (fun p => (p.1, p.2.head?.elim 0 (fun h => h.hlId))) rest) := rfl
    rw [hrc]
    have h0 : countNormal [] = 0 := rfl
    omega

/-- C3: for a grid row whose stored columns all hold a single real
(non-virtual) entry, the Range Builder emits exactly as many Normal ranges
as there are maximal runs of adjacent same-id stored columns — no more, no
fewer. The theorem quantifies over the stored row state directly, so the
count is independent of how many cell-run events built the row. -/
theorem c3_coalescing_minimality (topLine : Nat) (row : Row)
    (hsr : ∀ p ∈ JSA.entries row, singletonReal p.2 = true) :
    ∃ rs, buildHighlightRanges [some row] topLine = some rs ∧
      countNormal rs = runCount (rowRunKey row) := by
  obtain ⟨st', hf, hc⟩ := buildFold_count_init (0 + topLine) (JSA.entries row) hsr
  refine ⟨st'.res ++ flushB (0 + topLine) st', ?_, ?_⟩
  · rw [buildHighlightRanges]
    have hent : JSA.entries ([some row] : Grid) = [(0, row)] := rfl
    rw [hent]
    simp only [List.foldl_cons, List.foldl_nil]
    rw [buildRowRanges, hf]
    simp [Option.bind]
  · rw [hc]
    rfl

/-- C3 witness: a row with runs {0,1} (id 1) and {3} (id 2) yields exactly
2 Normal ranges. -/
theorem c3_coalescing_minimality_witness :
    ∃ rs, buildHighlightRanges
        [some [some [⟨[gA], 1, none⟩], some [⟨[gA], 1, none⟩], none, some [⟨[gB], 2, none⟩]]]
        5 = some rs ∧
      countNormal rs = runCount (rowRunKey
        [some [⟨[gA], 1, none⟩], some [⟨[gA], 1, none⟩], none, some [⟨[gB], 2, none⟩]]) :=
  c3_coalescing_minimality 5 _ (by decide)

/-- C6: evaluation of the double-width scenario at the claimed input. For
line "a猫b" and the cell run [("a",1), ("猫",2), ("",2), ("b",3)] at start
column 0 (the third cell being the double-width continuation), the code
produces Normal id-1 [0,1), a Virtual overlay carrying "b" (id 3) at
column 3, and Normal id-2 [1,3) — not the claimed three Normal ranges at
columns 0, 1, 2 with ids 1, 2, 3. The double-width match branch (lines
576-579) stores the real entry but never consumes the continuation cell,
unlike the sibling implementations (line 341 `discardNext()`, and
src/unnamed/part_001 line 282) and unlike the spec's step 4 ("consume
exactly one additional screen cell"), so the continuation cell is
misaligned onto character "b" and every later cell shifts one column
right. -/
theorem c6_double_width_actual_output :
    buildHighlightRanges (processHighlightCellsEvent []
        ⟨0, 0, [⟨[gA], 1⟩, ⟨[gCat], 2⟩, ⟨([] : Str), 2⟩, ⟨[gB], 3⟩], [gA, gCat, gB], 4⟩).1 0 =
      some [.norm 1 0 0 1,
        .virt [⟨[gB], 3, some [gB]⟩] 0 3,
        .norm 2 0 1 3] :=
  rfl

/-! The positive scroll shift: after deleting the clipped rows, the
ascending move loop relocates every present row above `frm` down by the
shift amount without ever overwriting a not-yet-relocated row. -/

theorem get_foldl_del_range (g : Grid) (frm : Nat) : ∀ (b : Nat) (j : Nat),
    JSA.get ((List.range b).foldl (fun h i => JSA.del h (frm + i)) g) j =
      if frm ≤ j ∧ j < frm + b then none else JSA.get g j := by
  intro b
  induction b with
  | zero =>
    intro j
    rw [if_neg (by omega)]
    rfl
  | succ n ih =>
    intro j
    rw [List.range_succ, List.foldl_append, List.foldl_cons, List.foldl_nil]
    by_cases hj : j = frm + n
    · subst hj
      rw [JSA.get_del_self]
      rw [if_pos (by omega)]
    · rw [JSA.get_del_ne _ _ _ hj, ih j]
      by_cases h1 : frm ≤ j ∧ j < frm + n
      · rw [if_pos h1, if_pos (by omega)]
      · rw [if_neg h1, if_neg (by omega)]

theorem mem_idxsFrom {α : Type} (a : List (Option α)) : ∀ (n i : Nat),
    i ∈ JSA.idxsFrom a n ↔ ∃ k, i = n + k ∧ (JSA.get a k).isSome = true := by
  induction a with
  | nil =>
    intro n i
    simp only [JSA.idxsFrom, List.not_mem_nil, false_iff]
    rintro ⟨k, -, hk⟩
    simp [JSA.get] at hk
  | cons x t ih =>
    intro n i
    cases x with
    | none =>
      rw [JSA.idxsFrom, ih (n + 1) i]
      constructor
      · rintro ⟨k, hik, hk⟩
        exact ⟨k + 1, by omega, hk⟩
      · rintro ⟨k, hik, hk⟩
        cases k with
        | zero => simp [JSA.get] at hk
        | succ m => exact ⟨m, by omega, hk⟩
    | some v =>
      rw [JSA.idxsFrom]
      constructor
      · intro hi
        rcases List.mem_cons.mp hi with h | h
        · exact ⟨0, by omega, by simp [JSA.get]⟩
        · obtain ⟨k, hik, hk⟩ := (ih (n + 1) i).mp h
          exact ⟨k + 1, by omega, hk⟩
      · rintro ⟨k, hik, hk⟩
        cases k with
        | zero => exact List.mem_cons.mpr (Or.inl (by omega))
        | succ m =>
          exact List.mem_cons.mpr (Or.inr ((ih (n + 1) i).mpr ⟨m, by omega, hk⟩))

theorem idxsFrom_ge {α : Type} (a : List (Option α)) : ∀ (n : Nat),
    ∀ i ∈ JSA.idxsFrom a n, n ≤ i := by
  induction a with
  | nil => intro n i hi; simp [JSA.idxsFrom] at hi
  | cons x t ih =>
    intro n i hi
    cases x with
    | none => exact Nat.le_trans (Nat.le_succ n) (ih (n + 1) i hi)
    | some v =>
      rcases List.mem_cons.mp hi with h | h
      · omega
      · exact Nat.le_trans (Nat.le_succ n) (ih (n + 1) i h)

theorem idxsFrom_pairwise {α : Type} (a : List (Option α)) : ∀ (n : Nat),
    List.Pairwise (· < ·) (JSA.idxsFrom a n) := by
  induction a with
  | nil => intro n; exact List.Pairwise.nil
  | cons x t ih =>
    intro n
    cases x with
    | none => exact ih (n + 1)
    | some v =>
      refine List.pairwise_cons.mpr ⟨?_, ih (n + 1)⟩
      intro i hi
      exact Nat.lt_of_lt_of_le (Nat.lt_succ_self n) (idxsFrom_ge t (n + 1) i hi)

theorem moveFold_skip (b frm : Nat) : ∀ (td : List Nat) (h : Grid),
    td.foldl (fun h idx => if idx ≤ frm then h
      else JSA.del (JSA.set h (idx - b) (JSA.get h idx)) idx) h =
    (td.filter (fun i => decide (frm < i))).foldl (fun h idx => if idx ≤ frm then h
      else JSA.del (JSA.set h (idx - b) (JSA.get h idx)) idx) h := by
  intro td
  induction td with
  | nil => intro h; rfl
  | cons idx rest ih =>
    intro h
    rw [List.foldl_cons]
    by_cases hidx : idx ≤ frm
    · rw [if_pos hidx]
      have hf : (List.filter (fun i => decide (frm < i)) (idx :: rest)) =
          List.filter (fun i => decide (frm < i)) rest := by
        simp [List.filter, Nat.not_lt.mpr hidx]
      rw [hf]
      exact ih h
    · rw [if_neg hidx]
      have hf : (List.filter (fun i => decide (frm < i)) (idx :: rest)) =
          idx :: List.filter (fun i => decide (frm < i)) rest := by
        simp [List.filter, Nat.lt_of_not_le (by simpa using hidx)]
      rw [hf, List.foldl_cons, if_neg hidx]
      exact ih _


theorem moveFold_char (g1 : Grid) (b frm : Nat) (hb : 0 < b)
    (hdel : ∀ i, frm ≤ i → i < frm + b → JSA.get g1 i = none) :
    ∀ (td : List Nat) (h : Grid) (m : Nat),
    List.Pairwise (· < ·) td →
    (∀ i ∈ td, frm < i ∧ (JSA.get g1 i).isSome = true ∧ m ≤ i) →
    (∀ i, frm < i → (JSA.get g1 i).isSome = true → m ≤ i → i ∈ td) →
    (∀ j, (j < frm → JSA.get h j = JSA.get g1 j) ∧
          (frm ≤ j → j + b < m → JSA.get h j = JSA.get g1 (j + b)) ∧
          (frm ≤ j → m ≤ j + b → j < m → JSA.get h j = none) ∧
          (m ≤ j → JSA.get h j = JSA.get g1 j)) →
    ∀ j, JSA.get (td.foldl (fun h idx => if idx ≤ frm then h
            else JSA.del (JSA.set h (idx - b) (JSA.get h idx)) idx) h) j =
      (if j < frm then JSA.get g1 j else JSA.get g1 (j + b)) := by
  intro td
  induction td with
  | nil =>
    intro h m hpw hmem hcomp hinv j
    simp only [List.foldl_nil]
    by_cases hj : j < frm
    · rw [if_pos hj]
      exact (hinv j).1 hj
    · rw [if_neg hj]
      have hj' : frm ≤ j := Nat.le_of_not_lt hj
      by_cases hjm : j + b < m
      · exact (hinv j).2.1 hj' hjm
      · have hmle : m ≤ j + b := Nat.le_of_not_lt hjm
        have hnone : JSA.get g1 (j + b) = none := by
          cases hg : JSA.get g1 (j + b) with
          | none => rfl
          | some r =>
            have : (j + b) ∈ ([] : List Nat) :=
              hcomp (j + b) (by omega) (by simp [hg]) hmle
            simp at this
        rw [hnone]
        by_cases hjm2 : j < m
        · exact (hinv j).2.2.1 hj' hmle hjm2
        · rw [(hinv j).2.2.2 (Nat.le_of_not_lt hjm2)]
          by_cases hjf : j = frm
          · exact hdel j (by omega) (by omega)
          · cases hg : JSA.get g1 j with
            | none => rfl
            | some r =>
              have : j ∈ ([] : List Nat) :=
                hcomp j (by omega) (by simp [hg]) (Nat.le_of_not_lt hjm2)
              simp at this
  | cons idx rest ih =>
    intro h m hpw hmem hcomp hinv j
    simp only [List.foldl_cons]
    obtain ⟨hfrm_idx, hpres_idx, hm_idx⟩ := hmem idx (List.mem_cons_self _ _)
    rw [if_neg (Nat.not_le.mpr hfrm_idx)]
    obtain ⟨hrel, hpw'⟩ := List.pairwise_cons.mp hpw
    have hidx_get : JSA.get h idx = JSA.get g1 idx := (hinv idx).2.2.2 hm_idx
    have hidx_ge : frm + b ≤ idx := by
      by_contra hlt
      push_neg at hlt
      rw [hdel idx (by omega) hlt] at hpres_idx
      simp at hpres_idx
    have hnpres : ∀ i, frm < i → m ≤ i → i < idx → JSA.get g1 i = none := by
      intro i hi1 hi2 hi3
      cases hg : JSA.get g1 i with
      | none => rfl
      | some r =>
        have hmem2 := hcomp i hi1 (by simp [hg]) hi2
        rcases List.mem_cons.mp hmem2 with he | he
        · omega
        · exact absurd hi3 (Nat.not_lt.mpr (Nat.le_of_lt (hrel i he)))
    refine ih (JSA.del (JSA.set h (idx - b) (JSA.get h idx)) idx) (idx + 1) hpw'
      (fun i hi => ⟨(hmem i (List.mem_cons_of_mem _ hi)).1,
        (hmem i (List.mem_cons_of_mem _ hi)).2.1, hrel i hi⟩)
      (fun i hi1 hi2 hi3 => by
        have hmem2 := hcomp i hi1 hi2 (by omega)
        rcases List.mem_cons.mp hmem2 with he | he
        · omega
        · exact he)
      ?_ j
    intro j2
    refine ⟨?_, ?_, ?_, ?_⟩
    · intro hj2
      rw [JSA.get_del_ne _ _ _ (by omega), JSA.get_set_ne _ _ _ _ (by omega)]
      exact (hinv j2).1 hj2
    · intro hj2f hj2m
      by_cases hje : j2 + b = idx
      · have hj2t : j2 = idx - b := by omega
        subst hj2t
        rw [JSA.get_del_ne _ _ _ (by omega), JSA.get_set_self, hidx_get, hje]
      · have hj2lt : j2 + b < idx := by omega
        rw [JSA.get_del_ne _ _ _ (by omega), JSA.get_set_ne _ _ _ _ (by omega)]
        by_cases hj2m2 : j2 + b < m
        · exact (hinv j2).2.1 hj2f hj2m2
        · have hg1none : JSA.get g1 (j2 + b) = none :=
            hnpres (j2 + b) (by omega) (Nat.le_of_not_lt hj2m2) hj2lt
          rw [hg1none]
          by_cases hj2m3 : j2 < m
          · exact (hinv j2).2.2.1 hj2f (Nat.le_of_not_lt hj2m2) hj2m3
          · rw [(hinv j2).2.2.2 (Nat.le_of_not_lt hj2m3)]
            by_cases hj2frm : j2 = frm
            · exact hdel j2 (by omega) (by omega)
            · exact hnpres j2 (by omega) (Nat.le_of_not_lt hj2m3) (by omega)
    · intro hj2f hj2m hj2lt
      by_cases hje : j2 = idx
      · subst hje
        rw [JSA.get_del_self]
      · have hj2lt2 : j2 < idx := by omega
        rw [JSA.get_del_ne _ _ _ (by omega), JSA.get_set_ne _ _ _ _ (by omega)]
        by_cases hj2m3 : j2 < m
        · exact (hinv j2).2.2.1 hj2f (by omega) hj2m3
        · rw [(hinv j2).2.2.2 (Nat.le_of_not_lt hj2m3)]
          by_cases hj2frm : j2 = frm
          · exact hdel j2 (by omega) (by omega)
          · exact hnpres j2 (by omega) (Nat.le_of_not_lt hj2m3) hj2lt2
    · intro hj2
      rw [JSA.get_del_ne _ _ _ (by omega), JSA.get_set_ne _ _ _ _ (by omega)]
      exact (hinv j2).2.2.2 (by omega)


/-- C5: for every grid state and every positive shift amount,
`shiftHighlights` deletes the `by` rows starting at `frm` and re-addresses
every remaining stored row with index above `frm` at its index minus `by`,
leaving no other rows: slot `j` afterwards holds exactly the former slot
`j` (below `frm`) or the former slot `j + by` (at or above `frm`). -/
theorem c5_shift_positive_spec (g : Grid) (amt : Int) (frm : Nat) (hpos : 0 < amt) :
    ∀ j, JSA.get (shiftHighlights g amt frm) j =
      if j < frm then JSA.get g j else JSA.get g (j + amt.toNat) := by
  intro j
  rw [shiftHighlights, if_pos hpos, shiftPos]
  have hb : 0 < amt.toNat := by omega
  have hg1 : ∀ i, JSA.get ((List.range amt.toNat).foldl (fun h i => JSA.del h (frm + i)) g) i =
      if frm ≤ i ∧ i < frm + amt.toNat then none else JSA.get g i :=
    fun i => get_foldl_del_range g frm amt.toNat i
  set g1 := (List.range amt.toNat).foldl (fun h i => JSA.del h (frm + i)) g with hg1def
  rw [JSA.idxs, moveFold_skip]
  have hchar := moveFold_char g1 amt.toNat frm hb
    (fun i h1 h2 => by rw [hg1 i, if_pos ⟨h1, h2⟩])
    ((JSA.idxsFrom g1 0).filter (fun i => decide (frm < i))) g1 0
    (List.Pairwise.filter _ (idxsFrom_pairwise g1 0))
    (fun i hi => by
      obtain ⟨him, hdec⟩ := List.mem_filter.mp hi
      obtain ⟨k, hik, hk⟩ := (mem_idxsFrom g1 0 i).mp him
      refine ⟨by simpa using hdec, ?_, Nat.zero_le i⟩
      have : k = i := by omega
      rw [← this]
      exact hk)
    (fun i hi1 hi2 _ => by
      refine List.mem_filter.mpr ⟨?_, by simpa using hi1⟩
      exact (mem_idxsFrom g1 0 i).mpr ⟨i, by omega, hi2⟩)
    (fun j2 => ⟨fun _ => rfl, fun _ h => by omega, fun _ _ h => by omega, fun _ => rfl⟩)
    j
  rw [hchar]
  by_cases hj : j < frm
  · rw [if_pos hj, if_pos hj, hg1 j, if_neg (by omega)]
  · rw [if_neg hj, if_neg hj, hg1 (j + amt.toNat), if_neg (by omega)]

/-- C5 witness: the grid with rows {0,1,2,3} after shift(by=2, from=0)
holds the former row 2 at index 0. -/
theorem c5_shift_positive_spec_witness :
    JSA.get (shiftHighlights [some [some [⟨[gA], 1, none⟩]], some [some [⟨[gA], 2, none⟩]],
        some [some [⟨[gA], 3, none⟩]], some [some [⟨[gA], 4, none⟩]]] 2 0) 0 =
      if 0 < 0 then JSA.get [some [some [⟨[gA], 1, none⟩]], some [some [⟨[gA], 2, none⟩]],
        some [some [⟨[gA], 3, none⟩]], some [some [⟨[gA], 4, none⟩]]] 0
      else JSA.get [some [some [⟨[gA], 1, none⟩]], some [some [⟨[gA], 2, none⟩]],
        some [some [⟨[gA], 3, none⟩]], some [some [⟨[gA], 4, none⟩]]] (0 + (2 : Int).toNat) :=
  c5_shift_positive_spec [some [some [⟨[gA], 1, none⟩]], some [some [⟨[gA], 2, none⟩]],
    some [some [⟨[gA], 3, none⟩]], some [some [⟨[gA], 4, none⟩]]] 2 0 (by decide) 0

end ALab
